import Mathlib

/-!
Shallow embedding of the lxcri container runtime core (mount resolution,
mount configuration, environment cleanup, rlimits, capabilities, init
configuration and device bind mounts) together with theorems checking the
natural-language specification against the code.

Go strings are modelled as Lean `String`; every Go string primitive used by
the embedded functions (`strings.Split`, `strings.HasPrefix`,
`strings.TrimPrefix`, `strings.Join`, `filepath.Clean`, `filepath.Join`,
`filepath.Dir`, `filepath.IsAbs`, `strings.ToLower` on ASCII data) is
implemented structurally over the underlying character list so that all
definitions evaluate by `decide`/`rfl`.  Go's byte-wise lexicographic string
order coincides with code-point order because UTF-8 is order preserving.
-/

namespace Lxcri

/-- Boolean prefix test on character lists: `listPre p l` holds iff `p` is an
initial segment of `l`.  Backs the model of Go `strings.HasPrefix`. -/
def listPre : List Char → List Char → Bool
  | [], _ => true
  | _ :: _, [] => false
  | a :: p, b :: l => a == b && listPre p l

/-- Model of Go `strings.HasPrefix s pre`. -/
def strStarts (s pre : String) : Bool := listPre pre.data s.data

/-- Model of Go `strings.TrimPrefix s pre`. -/
def trimPre (s pre : String) : String :=
  if strStarts s pre then ⟨s.data.drop pre.data.length⟩ else s

/-- Model of Go `strings.TrimLeft s "/"`: drop all leading slashes. -/
def trimLeftSlash (s : String) : String := ⟨s.data.dropWhile (fun c => c == '/')⟩

/-- Helper for `splitChars`: splits the remaining characters on `c`, with the
characters of the current field accumulated in reverse in `acc`. -/
def splitCharsAux (c : Char) : List Char → List Char → List (List Char)
  | [], acc => [acc.reverse]
  | a :: rest, acc =>
    if a == c then acc.reverse :: splitCharsAux c rest []
    else splitCharsAux c rest (a :: acc)

/-- Model of Go `strings.Split` for a single-character separator. -/
def splitChars (c : Char) (l : List Char) : List (List Char) := splitCharsAux c l []

/-- Model of Go `strings.Split s "/"`, producing strings. -/
def splitSlash (s : String) : List String := (splitChars '/' s.data).map String.mk

/-- Interleave separator `c` between the fields; model of `strings.Join`
restricted to single-character separators. -/
def joinSep (c : Char) : List (List Char) → List Char
  | [] => []
  | [x] => x
  | x :: xs => x ++ c :: joinSep c xs

/-- Model of Go `strings.Join l sep` for a single-character separator. -/
def joinStr (c : Char) (l : List String) : String := ⟨joinSep c (l.map String.data)⟩

/-- One step of the segment-stack form of Go `filepath.Clean`: empty and `.`
segments are dropped, `..` pops the stack (or is kept when the path is not
rooted and there is nothing to pop), any other segment is pushed. -/
def cleanStep (rooted : Bool) (acc : List (List Char)) (seg : List Char) : List (List Char) :=
  if seg = [] ∨ seg = ['.'] then acc
  else if seg = ['.', '.'] then
    if acc ≠ [] ∧ acc.getLast? ≠ some ['.', '.'] then acc.dropLast
    else if rooted then acc else acc ++ [['.', '.']]
  else acc ++ [seg]

/-- Model of Go `filepath.Clean` on Unix paths (segment-stack formulation of
the lexical cleaning algorithm). -/
def cleanChars (p : List Char) : List Char :=
  if p = [] then ['.']
  else
    let rooted := p.head? == some '/'
    let out := (splitChars '/' p).foldl (cleanStep rooted) []
    if rooted then '/' :: joinSep '/' out
    else if out = [] then ['.'] else joinSep '/' out

/-- Model of Go `filepath.Clean`. -/
def clean (s : String) : String := ⟨cleanChars s.data⟩

/-- Model of Go `filepath.IsAbs` on Unix. -/
def isAbs (s : String) : Bool := strStarts s "/"

/-- Model of Go `filepath.Join(a, b)`: non-empty elements joined with `/` and
cleaned; joining only empty elements yields the empty string. -/
def join2 (a b : String) : String :=
  if a = "" ∧ b = "" then ""
  else if a = "" then clean b
  else if b = "" then clean a
  else clean (a ++ "/" ++ b)

/-- Model of variadic Go `filepath.Join(l...)`. -/
def joinAll (l : List String) : String :=
  let ne := l.filter (fun s => ¬ s = "")
  if ne = [] then "" else clean (joinStr '/' ne)

/-- Characters of a path up to and including its final `/` (empty when the
path has no `/`); helper for `dirPath`. -/
def dirChars (p : List Char) : List Char :=
  (p.reverse.dropWhile (fun c => c ≠ '/')).reverse

/-- Model of Go `filepath.Dir`: everything before the final path separator,
cleaned (`.` when there is no separator). -/
def dirPath (p : String) : String := clean ⟨dirChars p.data⟩

/-- ASCII lower-casing of one character; helper for `toLowerAscii`. -/
def lowerChar (c : Char) : Char :=
  if 'A' ≤ c ∧ c ≤ 'Z' then Char.ofNat (c.toNat + 32) else c

/-- Model of Go `strings.ToLower` (the embedded code only lower-cases ASCII
identifiers such as rlimit and capability names). -/
def toLowerAscii (s : String) : String := ⟨s.data.map lowerChar⟩

/-! ## Filesystem model

The embedded functions inspect the host filesystem through `os.Lstat`,
`os.Stat` and `os.Readlink` and mutate it through `os.MkdirAll` and
`os.OpenFile(..., O_CREATE, ...)`.  The filesystem is modelled as a finite
association list from path strings to file kinds; `lstat` of an unlisted
path reports "does not exist".  `os.Stat` follows symlinks in the final
component (fuel-bounded); intermediate-component symlink traversal is folded
into the abstract path→kind map. -/

/-- Kind of a filesystem object as observed by `os.Lstat`. -/
inductive FKind where
  | notfound
  | file
  | dir
  | symlink (target : String)
  deriving DecidableEq, Repr

/-- A modelled filesystem: association of paths to file kinds. -/
abbrev FS := List (String × FKind)

/-- Model of `os.Lstat`: the kind recorded for the path, `notfound` otherwise. -/
def lstatKind (fs : FS) (p : String) : FKind :=
  match fs.lookup p with
  | some k => k
  | none => .notfound

/-- Model of `os.Stat` (symlink following, fuel-bounded): `none` when the
path does not exist (or symlinks are too deep), otherwise `some isDir`. -/
def statIsDir : Nat → FS → String → Option Bool
  | 0, _, _ => none
  | fuel + 1, fs, p =>
    match lstatKind fs p with
    | .notfound => none
    | .file => some false
    | .dir => some true
    | .symlink t => statIsDir fuel fs (if isAbs t then t else join2 (dirPath p) t)

/-- Fuel used for `statIsDir`; the kernel's symlink-following limit is 40. -/
def statFuel : Nat := 40

/-- Paths of all non-empty prefixes of `p` (helper for `mkdirAll`). -/
def prefixPaths (p : String) : List String :=
  let segs := (splitChars '/' p.data).filter (fun s => s ≠ [])
  let rooted := isAbs p
  (List.range segs.length).map fun i =>
    let body : String := ⟨joinSep '/' (segs.take (i + 1))⟩
    if rooted then "/" ++ body else body

/-- Model of `os.MkdirAll`: records a directory at every missing prefix of `p`. -/
def mkdirAll (fs : FS) (p : String) : FS :=
  (prefixPaths p).foldl
    (fun f q => if lstatKind f q = .notfound then (q, .dir) :: f else f) fs

/-- Model of `os.OpenFile(p, O_CREATE|..., mode)` followed by `Close`:
records a regular file at `p` when nothing exists there. -/
def createFile (fs : FS) (p : String) : FS :=
  if lstatKind fs p = .notfound then (p, .file) :: fs else fs

/-! ## OCI spec data -/

/-- An OCI mount (`specs.Mount`): the fields used by the embedded code. -/
structure Mount where
  source : String
  destination : String
  type : String
  options : List String
  deriving DecidableEq, Repr

/-- An OCI device (`specs.LinuxDevice`): only the path is used by
`bindMountDevices`. -/
structure Device where
  path : String
  deriving DecidableEq, Repr

/-- An OCI id mapping (`specs.LinuxIDMapping`). -/
structure IDMapping where
  containerID : Nat
  hostID : Nat
  size : Nat
  deriving DecidableEq, Repr

/-- An OCI rlimit (`specs.POSIXRlimit`). -/
structure Rlimit where
  rtype : String
  soft : Nat
  hard : Nat
  deriving DecidableEq, Repr

/-! ## Mount destination resolution (src/unnamed/part_005) -/

/-- Embedding of `resolvePathRelative(rootfs, currentPath, subPath)`.
Returns the resolved path together with an error flag (`true` when `lstat`
failed, i.e. the path does not exist; the Go function then returns the
joined path alongside the error). -/
def resolvePathRelative (fs : FS) (rootfs currentPath subPath : String) : String × Bool :=
  let p := join2 currentPath subPath
  match lstatKind fs p with
  | .notfound => (p, true)
  | .file => (p, false)
  | .dir => (p, false)
  | .symlink linkDst =>
    if isAbs linkDst then
      if strStarts linkDst rootfs then (p, false)
      else (join2 rootfs linkDst, false)
    else (clean (join2 currentPath linkDst), false)

/-- The per-segment loop of `resolveMountDestination`: on a resolution error
the already resolved path is joined with the remaining segments and the
error flag is returned. -/
def resolveLoop (fs : FS) (rootfs : String) : String → List String → String × Bool
  | cur, [] => (cur, false)
  | cur, e :: rest =>
    let r := resolvePathRelative fs rootfs cur e
    if r.2 then (join2 r.1 (joinAll rest), true)
    else resolveLoop fs rootfs r.1 rest

/-- Embedding of `resolveMountDestination(rootfs, dst)`: splits `dst` on `/`
(after trimming one leading `/`) and resolves segment by segment starting at
the rootfs.  The boolean is the not-found indicator (Go's non-nil error). -/
def resolveMountDestination (fs : FS) (rootfs dst : String) : String × Bool :=
  resolveLoop fs rootfs rootfs (splitSlash (trimPre dst "/"))

/-! ## Mount configuration (src/unnamed/part_005, `configureMounts`) -/

/-- Embedding of `removeMountOptions`: keeps the options that are not listed
as unsupported (logging of removed options is dropped). -/
def removeMountOptions (opts unsupported : List String) : List String :=
  opts.filter (fun o => ¬ unsupported.contains o)

/-- Embedding of `filterMountOptions`: for a `tmpfs` filesystem the
unsupported `tmpcopyup` option is removed; all other filesystems keep their
options unchanged. -/
def filterMountOptions (fstype : String) (opts : List String) : List String :=
  if fstype = "tmpfs" then removeMountOptions opts ["tmpcopyup"] else opts

/-- Embedding of `createMountDestination(c, ms)`: stats the mount source; a
missing source fails for a `bind` mount unless the `optional` option is
present (in which case the mount is left unchanged); otherwise a missing or
directory source appends `create=dir` (creating the destination directory
when the rootfs is readonly) and a file source appends `create=file`
(creating the destination file when the rootfs is readonly). -/
def createMountDestination (fs : FS) (readonly : Bool) (m : Mount) :
    Except String (FS × Mount) :=
  match statIsDir statFuel fs m.source with
  | none =>
    if m.type = "bind" then
      if m.options.contains "optional" then .ok (fs, m)
      else .error ("failed to access bind mount source " ++ m.source)
    else
      let m' := { m with options := m.options ++ ["create=dir"] }
      .ok (if readonly then mkdirAll fs m'.destination else fs, m')
  | some true =>
    let m' := { m with options := m.options ++ ["create=dir"] }
    .ok (if readonly then mkdirAll fs m'.destination else fs, m')
  | some false =>
    let m' := { m with options := m.options ++ ["create=file"] }
    .ok (if readonly then createFile (mkdirAll fs (dirPath m'.destination)) m'.destination
         else fs, m')

/-- The cgroup rewrite at the top of the `configureMounts` loop body:
`cgroup` and `cgroup2` mounts become `cgroup2` mounts from source `cgroup2`
with `optional` appended to their options. -/
def cgroupRewrite (m : Mount) : Mount :=
  if m.type = "cgroup" ∨ m.type = "cgroup2" then
    { m with type := "cgroup2", source := "cgroup2", options := m.options ++ ["optional"] }
  else m

/-- The remainder of the `configureMounts` loop body after the cgroup
rewrite: the destination is resolved inside the rootfs (a resolution error
is only logged), resolved destinations that escape the rootfs abort with an
error, the destination is rewritten to the resolved path, the mount
destination is created if needed and unsupported options are filtered. -/
def processMountRest (fs : FS) (rootfs : String) (readonly : Bool) (ms : Mount) :
    Except String (FS × Mount) :=
  let rd := resolveMountDestination fs rootfs ms.destination
  if strStarts rd.1 rootfs then
    match createMountDestination fs readonly { ms with destination := rd.1 } with
    | .error e => .error e
    | .ok (fs', ms') =>
      .ok (fs', { ms' with options := filterMountOptions ms'.type ms'.options })
  else
    .error ("resolved mount target path " ++ rd.1 ++ " escapes from container root " ++ rootfs)

/-- Embedding of one iteration of the `configureMounts` loop.  The returned
mount is the one whose formatted form is passed to `lxc.mount.entry`. -/
def processMount (fs : FS) (rootfs : String) (readonly : Bool) (m : Mount) :
    Except String (FS × Mount) :=
  processMountRest fs rootfs readonly (cgroupRewrite m)

/-- The `configureMounts` loop over the (already sorted) mounts: emits one
entry per mount in order and stops at the first error.  The first component
collects the entries emitted before any error; the second is the error, if
any. -/
def processMounts (rootfs : String) (readonly : Bool) : FS → List Mount → List Mount × Option String
  | _, [] => ([], none)
  | fs, m :: rest =>
    match processMount fs rootfs readonly m with
    | .error e => ([], some e)
    | .ok (fs', m') =>
      let r := processMounts rootfs readonly fs' rest
      (m' :: r.1, r.2)

/-- Lexicographic (code-point, hence UTF-8 byte) order on character lists;
models Go's built-in string order used by `mounts.Less`. -/
def leChars : List Char → List Char → Bool
  | [], _ => true
  | _ :: _, [] => false
  | a :: as, b :: bs =>
    if a.toNat = b.toNat then leChars as bs else decide (a.toNat < b.toNat)

/-- Go's string order `a <= b` (byte-wise lexicographic). -/
def leStr (a b : String) : Bool := leChars a.data b.data

/-- The sort performed by `configureMounts` via `sort.Sort(mounts(...))` with
`Less` comparing destinations: mounts ordered by destination.  (Go's
`sort.Sort` is an unstable comparison sort; any sort by the same key agrees
with it up to the order of mounts with equal destinations.) -/
def sortMounts (ms : List Mount) : List Mount :=
  List.insertionSort (fun a b => leStr a.destination b.destination = true) ms

/-- Embedding of `configureMounts` (modulo the initial `lxc.mount.auto`
entry, see `configureMountsEntries`): sorts the spec mounts by destination
and processes them in order. -/
def configureMountsM (fs : FS) (rootfs : String) (readonly : Bool) (ms : List Mount) :
    List Mount × Option String :=
  processMounts rootfs readonly fs (sortMounts ms)

/-- The formatted `lxc.mount.entry` value `src dst type opt1,opt2,...`. -/
def fmtMountEntry (m : Mount) : String :=
  m.source ++ " " ++ m.destination ++ " " ++ m.type ++ " " ++ joinStr ',' m.options

/-- The full key/value sequence emitted by `configureMounts` (auto-mount
disabling followed by one `lxc.mount.entry` per processed mount). -/
def configureMountsEntries (fs : FS) (rootfs : String) (readonly : Bool) (ms : List Mount) :
    List (String × String) :=
  ("lxc.mount.auto", "") ::
    (configureMountsM fs rootfs readonly ms).1.map (fun m => ("lxc.mount.entry", fmtMountEntry m))

example : clean "/rootfs//run/resolv.conf" = "/rootfs/run/resolv.conf" := by decide
example : clean "a/../../b" = "../b" := by decide
example : clean "/.." = "/" := by decide
example : clean "" = "." := by decide
example : join2 "/r" "/z" = "/r/z" := by decide
example : join2 "/r/b" "" = "/r/b" := by decide
example : joinAll [] = "" := by decide
example : splitSlash "etc/resolv.conf" = ["etc", "resolv.conf"] := by decide
example : splitSlash "" = [""] := by decide
example : trimPre "/etc/x" "/" = "etc/x" := by decide
example : toLowerAscii "RLIMIT_NOFILE" = "rlimit_nofile" := by decide
example : dirPath "/r/a/b" = "/r/a" := by decide
example : strStarts "/run/resolv.conf" "/rootfs" = false := by decide

/-- Sample rootfs for the `/etc/resolv.conf` resolution example:
`<rootfs>/etc` is a directory and `<rootfs>/etc/resolv.conf` is a symlink
with the absolute target `/run/resolv.conf`. -/
def fsResolv : FS :=
  [("/rootfs", .dir), ("/rootfs/etc", .dir),
   ("/rootfs/etc/resolv.conf", .symlink "/run/resolv.conf")]

example :
    resolveMountDestination fsResolv "/rootfs" "/etc/resolv.conf" =
      ("/rootfs/run/resolv.conf", false) := by decide

example :
    resolveMountDestination [] "/r" "/sys/fs/cgroup" = ("/r/sys/fs/cgroup", true) := by
  decide

/-- Rootfs fixture for the escape witness: `/r/a` is a symlink whose relative
target climbs out of the rootfs. -/
def fsEscape : FS := [("/r", .dir), ("/r/a", .symlink "../../x")]

/-- Mount fixture whose destination resolves outside the rootfs of
`fsEscape`. -/
def mEscape : Mount := { source := "src", destination := "/a", type := "none", options := [] }

/-- Rootfs fixture for the cgroup witness. -/
def fsCg : FS := [("/r", .dir)]

/-- A `cgroup` mount as it appears in an OCI spec. -/
def mCg : Mount :=
  { source := "cgroup", destination := "/sys/fs/cgroup", type := "cgroup", options := [] }

/-- The entry that `configureMounts` emits for `mCg` over `fsCg`. -/
def mCgOut : Mount :=
  { source := "cgroup2", destination := "/r/sys/fs/cgroup", type := "cgroup2",
    options := ["optional", "create=dir"] }

/-- Rootfs fixture for the bind-mount witness. -/
def fsBind : FS := [("/r", .dir)]

/-- An optional bind mount whose source does not exist in `fsBind`. -/
def mBind : Mount :=
  { source := "/nosuch", destination := "/a", type := "bind", options := ["optional"] }

/-- Rootfs fixture for the mount-ordering counterexample: `/r/a` is a symlink
to the absolute target `/z`, so its resolved destination `/r/z` sorts after
the resolved destination `/r/b` of the later mount. -/
def fsOrder : FS := [("/r", .dir), ("/r/a", .symlink "/z")]

/-- First mount of the ordering counterexample (spec destination `/a`). -/
def mOrderA : Mount := { source := "s1", destination := "/a", type := "none", options := [] }

/-- Second mount of the ordering counterexample (spec destination `/b`). -/
def mOrderB : Mount := { source := "s2", destination := "/b", type := "none", options := [] }

/-! ## Init configuration (src/unnamed/part_001) -/

/-- Modelled from the spec: `pkg/specki.UnmapContainerID` is not under
`src/`.  Per the spec ("Spec utilities: id un/mapping" and §4.5 "init may be
a different uid due to id mapping") a container id inside one of the spec's
id mappings is translated to the corresponding host id; an id outside every
mapping is returned unchanged. -/
def unmapContainerID (id : Nat) : List IDMapping → Nat
  | [] => id
  | m :: rest =>
    if 1 ≤ m.size ∧ m.containerID ≤ id ∧ id < m.containerID + m.size then
      m.hostID + (id - m.containerID)
    else unmapContainerID id rest

/-- Embedding of `runAsRuntimeUser`: true when the container process UID,
unmapped through the spec's UID mappings, equals the runtime process UID
(the ambient `os.Getuid()` is passed as `runtimeUID`). -/
def runAsRuntimeUser (uid : Nat) (uidMappings : List IDMapping) (runtimeUID : Nat) : Bool :=
  unmapContainerID uid uidMappings == runtimeUID

/-- Observable actions performed by the init-configuration code: appending a
mount to the spec, setting an engine config item, and the filesystem calls
of `createFifo` and `touchFile`. -/
inductive CAction where
  | addMount (m : Mount)
  | setItem (key value : String)
  | mkfifo (path : String) (mode : Nat)
  | chmodPath (path : String) (mode : Nat)
  | touchPath (path : String) (mode : Nat)
  deriving DecidableEq, Repr

/-- Embedding of `createFifo(dst, mode)`: `unix.Mkfifo` followed by an
explicit `unix.Chmod` (umask affects `Mkfifo`). -/
def createFifo (dst : String) (mode : Nat) : List CAction :=
  [.mkfifo dst mode, .chmodPath dst mode]

/-- Modelled from the spec: `Container.syncFifoPath` is not under `src/`;
the runtime-store layout in the spec places the sync FIFO at
`<runtimeDir>/syncfifo`. -/
def syncFifoPath (runtimeDir : String) : String := join2 runtimeDir "syncfifo"

/-- Embedding of `configureInitUser`: emits `lxc.idmap` entries for the UID
and GID mappings unless the runtime already runs inside a configured user
namespace, then `lxc.init.uid`, `lxc.init.gid` and (when supported and
non-empty) the comma-joined `lxc.init.groups`. -/
def configureInitUser (usernsConfigured : Bool) (uidMappings gidMappings : List IDMapping)
    (uid gid : Nat) (additionalGids : List Nat) (supportsGroups : Bool) : List CAction :=
  (if usernsConfigured then []
   else
     uidMappings.map (fun m => CAction.setItem "lxc.idmap"
       ("u " ++ Nat.repr m.containerID ++ " " ++ Nat.repr m.hostID ++ " " ++ Nat.repr m.size)) ++
     gidMappings.map (fun m => CAction.setItem "lxc.idmap"
       ("g " ++ Nat.repr m.containerID ++ " " ++ Nat.repr m.hostID ++ " " ++ Nat.repr m.size)))
  ++ [CAction.setItem "lxc.init.uid" (Nat.repr uid),
      CAction.setItem "lxc.init.gid" (Nat.repr gid)]
  ++ (if additionalGids.length > 0 ∧ supportsGroups then
        [CAction.setItem "lxc.init.groups" (joinStr ',' (additionalGids.map Nat.repr))]
      else [])

/-- Embedding of `configureInit`: bind-mounts the runtime dir at `/.lxcri`,
sets `lxc.init.cwd`, creates the sync FIFO with mode `0600` when the
container process runs as the runtime user and `0666` otherwise, configures
the init user, creates the zero-byte `lxcri-init` anchor, bind-mounts the
init binary and sets `lxc.init.cmd`. -/
def configureInit (runtimeDir libexecInit : String) (usernsConfigured : Bool)
    (uidMappings gidMappings : List IDMapping) (uid gid : Nat)
    (additionalGids : List Nat) (supportsGroups : Bool) (runtimeUID : Nat) : List CAction :=
  [CAction.addMount
     { source := runtimeDir, destination := trimLeftSlash "/.lxcri", type := "bind",
       options := ["bind", "ro", "nodev", "nosuid", "create=dir"] },
   CAction.setItem "lxc.init.cwd" "/.lxcri"]
  ++ (if runAsRuntimeUser uid uidMappings runtimeUID then
        createFifo (syncFifoPath runtimeDir) 0o600
      else createFifo (syncFifoPath runtimeDir) 0o666)
  ++ configureInitUser usernsConfigured uidMappings gidMappings uid gid additionalGids supportsGroups
  ++ [CAction.touchPath (join2 runtimeDir "lxcri-init") 0,
      CAction.addMount
        { source := libexecInit, destination := trimLeftSlash (join2 "/.lxcri" "lxcri-init"),
          type := "bind", options := ["bind", "ro", "nosuid"] },
      CAction.setItem "lxc.init.cmd" (join2 "/.lxcri" "lxcri-init")]

/-- Recognizer for FIFO-creation actions. -/
def isMkfifo : CAction → Bool
  | .mkfifo _ _ => true
  | _ => false

/-! ## Capabilities, devices and rlimits (src/unnamed/part_003) -/

/-- The capability-name normalization of `configureCapabilities`: lower-case
with a leading `cap_` stripped. -/
def capName (c : String) : String := trimPre (toLowerAscii c) "cap_"

/-- Embedding of the `keepCaps` computation of `configureCapabilities`:
`"none"` when the spec has no capabilities struct, otherwise the
space-joined normalized permitted capability names, or `"none"` when that
list is empty.  `none`/`some permitted` models a nil/non-nil
`spec.Process.Capabilities` with its `Permitted` set. -/
def keepCapsValue : Option (List String) → String
  | none => "none"
  | some permitted =>
    let caps := permitted.map capName
    if caps.length > 0 then joinStr ' ' caps else "none"

/-- Embedding of `configureCapabilities`: the single config item it sets. -/
def configureCapabilitiesEntry (caps : Option (List String)) : String × String :=
  ("lxc.cap.keep", keepCapsValue caps)

/-- The `lxc.cap.keep` value as the spec describes it: the space-separated
list of the permitted capability names, each lower-cased with the `cap_`
prefix stripped, and the string `none` when capabilities are absent or the
permitted set is empty.  (Spec-side definition for comparison with
`keepCapsValue`.) -/
def keepCapsSpecValue : Option (List String) → String
  | none => "none"
  | some [] => "none"
  | some (c :: cs) => joinStr ' ' ((c :: cs).map capName)

/-- The tmpfs mount that `bindMountDevices` substitutes for a `/dev` mount:
same destination and options, source and type `tmpfs`. -/
def devTmpfs (m : Mount) : Mount :=
  { source := "tmpfs", destination := m.destination, type := "tmpfs", options := m.options }

/-- The bind mount that `bindMountDevices` emits for one device. -/
def devBindMount (d : Device) : Mount :=
  { source := d.path, destination := d.path, type := "bind", options := ["bind"] }

/-- The mount-rewriting loop of `bindMountDevices`: a mount with destination
`/dev` is replaced by a tmpfs mount followed by one bind mount per device;
all other mounts are kept. -/
def bindMountDevicesMounts : List Mount → List Device → List Mount
  | [], _ => []
  | m :: rest, ds =>
    if m.destination = "/dev" then
      (devTmpfs m :: ds.map devBindMount) ++ bindMountDevicesMounts rest ds
    else m :: bindMountDevicesMounts rest ds

/-- Embedding of `bindMountDevices`: rewrites the spec mounts and
unconditionally clears `spec.Linux.Devices` (the `os.MkdirAll` of the rootfs
`/dev` is a host-side effect not observed by the rewritten spec). -/
def bindMountDevices (ms : List Mount) (ds : List Device) : List Mount × List Device :=
  (bindMountDevicesMounts ms ds, [])

/-- A mount fixture whose destination is not `/dev`. -/
def mNotDev : Mount := { source := "proc", destination := "/proc", type := "proc", options := [] }

/-- A device fixture. -/
def devNull : Device := { path := "/dev/null" }

/-- The rlimit name normalization of `configureContainer`: type lower-cased
with a leading `rlimit_` prefix stripped. -/
def rlimitName (t : String) : String := trimPre (toLowerAscii t) "rlimit_"

/-- Embedding of the rlimit loop of `configureContainer` with the running
`seenLimits` list made explicit: emits one `lxc.prlimit.<name>` entry with
value `<soft>:<hard>` per rlimit and fails on a normalized name that was
already seen. -/
def rlimitEntriesGo : List String → List Rlimit → Except String (List (String × String))
  | _, [] => .ok []
  | seen, l :: rest =>
    let name := rlimitName l.rtype
    if seen.contains name then .error ("duplicate resource limit " ++ l.rtype)
    else
      match rlimitEntriesGo (seen ++ [name]) rest with
      | .error e => .error e
      | .ok es => .ok (("lxc.prlimit." ++ name, Nat.repr l.soft ++ ":" ++ Nat.repr l.hard) :: es)

/-- The rlimit section of `configureContainer` (seen list initially empty). -/
def configureRlimits (rlimits : List Rlimit) : Except String (List (String × String)) :=
  rlimitEntriesGo [] rlimits

/-- Rlimit fixture for the C6 witness. -/
def rlimNofile : Rlimit := { rtype := "RLIMIT_NOFILE", soft := 1024, hard := 4096 }

/-! ## Environment cleanup (src/unnamed/part_003, `cleanenv`) -/

/-- The key of an environment entry: the characters before the first `=`
(Go `strings.Split(kv, "=")[0]`). -/
def keyChars (kv : String) : List Char := kv.data.takeWhile (fun c => c ≠ '=')

/-- Modelled from the spec: `pkg/specki.Setenv` is not under `src/`.  Per
`cleanenv`'s contract and the spec ("Duplicates in `spec.process.env` are
pruned", "first wins when overwrite=false"), `Setenv(env, val, overwrite)`
scans `env` for an entry whose key equals `val`'s key (an entry with prefix
`key=`); when found it keeps the old entry (overwrite false) or replaces it
in place (overwrite true) and reports that the key existed; otherwise it
appends `val`. -/
def setenvGo : List String → String → Bool → List String × Bool
  | [], v, _ => ([v], false)
  | kv :: rest, v, ow =>
    if listPre (keyChars v ++ ['=']) kv.data then
      ((if ow then v else kv) :: rest, true)
    else
      let r := setenvGo rest v ow
      (kv :: r.1, r.2)

/-- Embedding of `cleanenv` (logging dropped): environments with fewer than
two entries are returned unchanged; otherwise the entries are folded through
`Setenv` starting from the empty environment.  `Create` calls this with
`overwrite = true`. -/
def cleanenvGo (env : List String) (overwrite : Bool) : List String :=
  if env.length < 2 then env
  else env.foldl (fun acc kv => (setenvGo acc kv overwrite).1) []

/-! ## Theorems: mount resolution and configuration -/

theorem createMountDestination_ok_fields (fs : FS) (ro : Bool) (m : Mount) (fs' : FS) (m' : Mount)
    (h : createMountDestination fs ro m = .ok (fs', m')) :
    m'.destination = m.destination ∧ m'.type = m.type ∧ ∀ x ∈ m.options, x ∈ m'.options := by
  unfold createMountDestination at h
  split at h
  · split at h
    · split at h
      · cases h
        exact ⟨rfl, rfl, fun x hx => hx⟩
      · cases h
    · cases h
      refine ⟨rfl, rfl, fun x hx => ?_⟩
      exact List.mem_append_left _ hx
  · cases h
    refine ⟨rfl, rfl, fun x hx => ?_⟩
    exact List.mem_append_left _ hx
  · cases h
    refine ⟨rfl, rfl, fun x hx => ?_⟩
    exact List.mem_append_left _ hx

theorem filterMountOptions_ne_tmpfs (fstype : String) (opts : List String)
    (h : fstype ≠ "tmpfs") : filterMountOptions fstype opts = opts := by
  simp [filterMountOptions, h]

theorem cgroupRewrite_destination (m : Mount) : (cgroupRewrite m).destination = m.destination := by
  unfold cgroupRewrite
  split <;> rfl

theorem processMountRest_ok_prefix (fs : FS) (rootfs : String) (ro : Bool) (ms : Mount)
    (fs' : FS) (m' : Mount) (h : processMountRest fs rootfs ro ms = .ok (fs', m')) :
    strStarts m'.destination rootfs = true := by
  simp only [processMountRest] at h
  split at h
  case isTrue hpre =>
    split at h
    case h_1 => cases h
    case h_2 fs1 ms1 hcd =>
      cases h
      have hd := (createMountDestination_ok_fields _ _ _ _ _ hcd).1
      simpa [hd] using hpre
  case isFalse => cases h

theorem processMount_ok_prefix (fs : FS) (rootfs : String) (ro : Bool) (m : Mount)
    (fs' : FS) (m' : Mount) (h : processMount fs rootfs ro m = .ok (fs', m')) :
    strStarts m'.destination rootfs = true :=
  processMountRest_ok_prefix fs rootfs ro (cgroupRewrite m) fs' m' h

theorem processMounts_prefix (rootfs : String) (ro : Bool) (ms : List Mount) :
    ∀ fs : FS, ∀ m' ∈ (processMounts rootfs ro fs ms).1, strStarts m'.destination rootfs = true := by
  induction ms with
  | nil => intro fs m' hm'; simp [processMounts] at hm'
  | cons m rest ih =>
    intro fs m' hm'
    simp only [processMounts] at hm'
    cases hp : processMount fs rootfs ro m with
    | error e => rw [hp] at hm'; simp at hm'
    | ok pr =>
      obtain ⟨fs1, m1⟩ := pr
      rw [hp] at hm'
      simp only [List.mem_cons] at hm'
      cases hm' with
      | inl heq => subst heq; exact processMount_ok_prefix _ _ _ _ _ _ hp
      | inr hmem => exact ih fs1 m' hmem

theorem processMount_escape (fs : FS) (rootfs : String) (ro : Bool) (m : Mount)
    (h : strStarts (resolveMountDestination fs rootfs m.destination).1 rootfs = false) :
    ∃ e, processMount fs rootfs ro m = .error e := by
  refine ⟨"resolved mount target path " ++ (resolveMountDestination fs rootfs m.destination).1 ++
    " escapes from container root " ++ rootfs, ?_⟩
  have hd : (cgroupRewrite m).destination = m.destination := cgroupRewrite_destination m
  simp [processMount, processMountRest, hd, h]

/-- Claim C1: every mount entry emitted by `configureMounts` has a
destination that starts with the rootfs prefix, and a mount whose resolved
destination does not start with the rootfs makes the per-mount processing
step fail with an error (so no entry is emitted for it). -/
theorem configureMounts_destinations_in_rootfs (fs : FS) (rootfs : String) (ro : Bool)
    (ms : List Mount) :
    (∀ m' ∈ (configureMountsM fs rootfs ro ms).1, strStarts m'.destination rootfs = true) ∧
    (∀ m : Mount, strStarts (resolveMountDestination fs rootfs m.destination).1 rootfs = false →
      ∃ e, processMount fs rootfs ro m = .error e) :=
  ⟨fun m' hm' => processMounts_prefix rootfs ro (sortMounts ms) fs m' hm',
   fun m h => processMount_escape fs rootfs ro m h⟩

/-- Witness for C1: a mount whose destination symlinks out of the rootfs is
rejected by the processing step. -/
theorem configureMounts_destinations_in_rootfs_witness :
    ∃ e, processMount fsEscape "/r" false mEscape = .error e :=
  (configureMounts_destinations_in_rootfs fsEscape "/r" false []).2 mEscape (by decide)

theorem processMount_cgroup (fs : FS) (rootfs : String) (ro : Bool) (m : Mount)
    (fs' : FS) (m' : Mount) (hc : m.type = "cgroup" ∨ m.type = "cgroup2")
    (h : processMount fs rootfs ro m = .ok (fs', m')) :
    m'.type = "cgroup2" ∧ "optional" ∈ m'.options := by
  have hms : cgroupRewrite m =
      { m with type := "cgroup2", source := "cgroup2", options := m.options ++ ["optional"] } := by
    simp [cgroupRewrite, hc]
  rw [processMount, hms] at h
  simp only [processMountRest] at h
  split at h
  case isTrue hpre =>
    split at h
    case h_1 => cases h
    case h_2 fs1 ms1 hcd =>
      cases h
      obtain ⟨hd, ht, hopts⟩ := createMountDestination_ok_fields _ _ _ _ _ hcd
      have ht2 : ms1.type = "cgroup2" := by simpa using ht
      have hmem : "optional" ∈ ms1.options := by
        apply hopts
        simp
      have hfil : filterMountOptions ms1.type ms1.options = ms1.options :=
        filterMountOptions_ne_tmpfs _ _ (by rw [ht2]; decide)
      exact ⟨by simpa using ht2, by simpa [hfil] using hmem⟩
  case isFalse => cases h

theorem processMounts_forall₂_cgroup (rootfs : String) (ro : Bool) (ms : List Mount) :
    ∀ fs out, processMounts rootfs ro fs ms = (out, none) →
      List.Forall₂
        (fun m m' => (m.type = "cgroup" ∨ m.type = "cgroup2") →
          m'.type = "cgroup2" ∧ "optional" ∈ m'.options) ms out := by
  induction ms with
  | nil =>
    intro fs out h
    simp only [processMounts, Prod.mk.injEq] at h
    rw [← h.1]
    exact List.Forall₂.nil
  | cons m rest ih =>
    intro fs out h
    simp only [processMounts] at h
    cases hp : processMount fs rootfs ro m with
    | error e => rw [hp] at h; simp at h
    | ok pr =>
      obtain ⟨fs1, m1⟩ := pr
      rw [hp] at h
      simp only [Prod.mk.injEq] at h
      rw [← h.1]
      have hrest : processMounts rootfs ro fs1 rest = ((processMounts rootfs ro fs1 rest).1, none) := by
        rw [← h.2]
      exact List.Forall₂.cons (fun hc => processMount_cgroup _ _ _ _ _ _ hc hp)
        (ih fs1 _ hrest)

/-- Claim C4: for every `cgroup` or `cgroup2` mount in the spec, the entry
emitted by `configureMounts` has type `cgroup2` and carries the `optional`
option (stated positionally over the destination-sorted mount list that
`configureMounts` processes, which is a permutation of the spec mounts). -/
theorem cgroup_mounts_become_cgroup2 (fs : FS) (rootfs : String) (ro : Bool)
    (ms : List Mount) (out : List Mount)
    (h : configureMountsM fs rootfs ro ms = (out, none)) :
    (sortMounts ms).Perm ms ∧
      List.Forall₂
        (fun m m' => (m.type = "cgroup" ∨ m.type = "cgroup2") →
          m'.type = "cgroup2" ∧ "optional" ∈ m'.options) (sortMounts ms) out :=
  ⟨List.perm_insertionSort _ ms,
   processMounts_forall₂_cgroup rootfs ro (sortMounts ms) fs out h⟩

/-- Witness for C4: a concrete `cgroup` mount is emitted as `cgroup2` with
`optional`. -/
theorem cgroup_mounts_become_cgroup2_witness :
    List.Forall₂
      (fun m m' : Mount => (m.type = "cgroup" ∨ m.type = "cgroup2") →
        m'.type = "cgroup2" ∧ "optional" ∈ m'.options)
      (sortMounts [mCg]) [mCgOut] :=
  (cgroup_mounts_become_cgroup2 fsCg "/r" false [mCg] [mCgOut] (by decide)).2

theorem bind_cgroupRewrite_id (m : Mount) (hbind : m.type = "bind") : cgroupRewrite m = m := by
  unfold cgroupRewrite
  rw [if_neg]
  intro hor
  rcases hor with h | h <;> rw [hbind] at h <;> exact absurd h (by decide)

/-- Claim C9: a `bind` mount whose source does not exist fails `configureMounts`
(and thus create) unless its options contain `optional`; with `optional` the
mount entry is still emitted, unchanged except for the resolved destination,
so no `create=dir`/`create=file` directive is added. -/
theorem bind_mount_missing_source (fs : FS) (rootfs : String) (ro : Bool) (m : Mount)
    (hbind : m.type = "bind")
    (hsrc : statIsDir statFuel fs m.source = none)
    (hpre : strStarts (resolveMountDestination fs rootfs m.destination).1 rootfs = true) :
    (m.options.contains "optional" = false →
      ∃ e, processMount fs rootfs ro m = .error e ∧
        ∀ rest, processMounts rootfs ro fs (m :: rest) = ([], some e)) ∧
    (m.options.contains "optional" = true →
      processMount fs rootfs ro m =
        .ok (fs, { m with destination := (resolveMountDestination fs rootfs m.destination).1 })) := by
  have hcg : cgroupRewrite m = m := bind_cgroupRewrite_id m hbind
  constructor
  · intro hopt
    have hopt' : ¬ ("optional" ∈ m.options) := by simpa using hopt
    have he : processMount fs rootfs ro m =
        .error ("failed to access bind mount source " ++ m.source) := by
      simp [processMount, hcg, processMountRest, hpre, createMountDestination, hsrc, hbind, hopt']
    exact ⟨_, he, fun rest => by simp [processMounts, he]⟩
  · intro hopt
    have hopt' : "optional" ∈ m.options := by simpa using hopt
    simp [processMount, hcg, processMountRest, hpre, createMountDestination, hsrc, hbind, hopt',
      filterMountOptions, removeMountOptions]

/-- Witness for C9: an `optional` bind mount with a missing source is
emitted with only its destination rewritten. -/
theorem bind_mount_missing_source_witness :
    processMount fsBind "/r" false mBind =
      .ok (fsBind, { mBind with destination := (resolveMountDestination fsBind "/r" mBind.destination).1 }) :=
  (bind_mount_missing_source fsBind "/r" false mBind rfl (by decide) (by decide)).2 (by decide)

theorem leChars_total (as bs : List Char) : leChars as bs = true ∨ leChars bs as = true := by
  induction as generalizing bs with
  | nil => exact Or.inl rfl
  | cons a as ih =>
    cases bs with
    | nil => exact Or.inr rfl
    | cons b bs =>
      by_cases hab : a.toNat = b.toNat
      · cases ih bs with
        | inl h => exact Or.inl (by simp [leChars, hab, h])
        | inr h => exact Or.inr (by simp [leChars, hab.symm, h])
      · cases Nat.lt_or_ge a.toNat b.toNat with
        | inl hlt => exact Or.inl (by simp [leChars, hab, hlt])
        | inr hge =>
          have hlt : b.toNat < a.toNat := lt_of_le_of_ne hge (fun he => hab he.symm)
          have hba : ¬ b.toNat = a.toNat := Nat.ne_of_lt hlt
          exact Or.inr (by simp [leChars, hba, hlt])

theorem leChars_trans (as bs cs : List Char) (h1 : leChars as bs = true)
    (h2 : leChars bs cs = true) : leChars as cs = true := by
  induction as generalizing bs cs with
  | nil => rfl
  | cons a as ih =>
    cases bs with
    | nil => simp [leChars] at h1
    | cons b bs =>
      cases cs with
      | nil => simp [leChars] at h2
      | cons c cs =>
        simp only [leChars] at h1 h2 ⊢
        by_cases hab : a.toNat = b.toNat <;> by_cases hbc : b.toNat = c.toNat
        · rw [if_pos hab] at h1
          rw [if_pos hbc] at h2
          rw [if_pos (hab.trans hbc)]
          exact ih bs cs h1 h2
        · rw [if_neg hbc] at h2
          have hlt : b.toNat < c.toNat := by simpa using h2
          have hac : a.toNat < c.toNat := hab ▸ hlt
          rw [if_neg (Nat.ne_of_lt hac)]
          simpa using hac
        · rw [if_neg hab] at h1
          have hlt : a.toNat < b.toNat := by simpa using h1
          have hac : a.toNat < c.toNat := hbc ▸ hlt
          rw [if_neg (Nat.ne_of_lt hac)]
          simpa using hac
        · rw [if_neg hab] at h1
          rw [if_neg hbc] at h2
          have hlt1 : a.toNat < b.toNat := by simpa using h1
          have hlt2 : b.toNat < c.toNat := by simpa using h2
          have hac : a.toNat < c.toNat := Nat.lt_trans hlt1 hlt2
          rw [if_neg (Nat.ne_of_lt hac)]
          simpa using hac

/-- Counterexample for C7: the destinations of the emitted entries are not
sorted, because sorting happens before symlink resolution rewrites the
destinations (`/a` resolves to `/r/z` which sorts after `/r/b`). -/
theorem emitted_destinations_not_sorted :
    ¬ List.Sorted (fun a b : String => leStr a b = true)
      ((configureMountsM fsOrder "/r" false [mOrderA, mOrderB]).1.map Mount.destination) := by
  have hval : (configureMountsM fsOrder "/r" false [mOrderA, mOrderB]).1.map Mount.destination =
      ["/r/z", "/r/b"] := by decide
  rw [hval]
  intro hs
  have hle : leStr "/r/z" "/r/b" = true :=
    (List.sorted_cons.mp hs).1 "/r/b" (by simp)
  exact absurd hle (by decide)

/-- Claim C7 (amended): `configureMounts` sorts the spec mounts by their
declared destination before processing, so entries are emitted in
nondecreasing order of the pre-resolution destinations; the resolved
destinations appearing in the emitted entries need not be sorted. -/
theorem mounts_sorted_before_emission (ms : List Mount) :
    List.Sorted (fun a b : Mount => leStr a.destination b.destination = true) (sortMounts ms) ∧
      (sortMounts ms).Perm ms := by
  haveI ht : IsTotal Mount (fun a b : Mount => leStr a.destination b.destination = true) :=
    ⟨fun a b => leChars_total a.destination.data b.destination.data⟩
  haveI htr : IsTrans Mount (fun a b : Mount => leStr a.destination b.destination = true) :=
    ⟨fun _ _ _ hab hbc => leChars_trans _ _ _ hab hbc⟩
  exact ⟨List.sorted_insertionSort _ ms, List.perm_insertionSort _ ms⟩

/-- Claim C3: a path segment that is a symlink with an absolute target is
kept as the already-joined path when the target starts with the rootfs
prefix and otherwise resolves to the rootfs prepended to the target; a
relative target is joined to the current directory and cleaned.  On a rootfs
where `/etc/resolv.conf` is a symlink to `/run/resolv.conf`, resolving
`/etc/resolv.conf` yields `<rootfs>/run/resolv.conf` (here without the
not-found indicator). -/
theorem resolve_symlink_rule (fs : FS) (rootfs cur sub t : String)
    (hl : lstatKind fs (join2 cur sub) = .symlink t) :
    ((isAbs t = true → strStarts t rootfs = true →
        resolvePathRelative fs rootfs cur sub = (join2 cur sub, false)) ∧
     (isAbs t = true → strStarts t rootfs = false →
        resolvePathRelative fs rootfs cur sub = (join2 rootfs t, false)) ∧
     (isAbs t = false →
        resolvePathRelative fs rootfs cur sub = (clean (join2 cur t), false))) ∧
    resolveMountDestination fsResolv "/rootfs" "/etc/resolv.conf" =
      ("/rootfs/run/resolv.conf", false) := by
  refine ⟨⟨?_, ?_, ?_⟩, by decide⟩
  · intro habs hpre
    simp [resolvePathRelative, hl, habs, hpre]
  · intro habs hpre
    simp [resolvePathRelative, hl, habs, hpre]
  · intro habs
    simp [resolvePathRelative, hl, habs]

/-- Witness for C3: the `/etc/resolv.conf` symlink of `fsResolv` resolves to
the rootfs-prefixed target. -/
theorem resolve_symlink_rule_witness :
    resolvePathRelative fsResolv "/rootfs" "/rootfs/etc" "resolv.conf" =
      (join2 "/rootfs" "/run/resolv.conf", false) :=
  ((resolve_symlink_rule fsResolv "/rootfs" "/rootfs/etc" "resolv.conf" "/run/resolv.conf"
    (by decide)).1.2.1) (by decide) (by decide)

/-! ## Theorems: init configuration -/

theorem filter_isMkfifo_initUser (usernsConfigured : Bool)
    (uidMappings gidMappings : List IDMapping) (uid gid : Nat)
    (additionalGids : List Nat) (supportsGroups : Bool) :
    (configureInitUser usernsConfigured uidMappings gidMappings uid gid additionalGids
      supportsGroups).filter isMkfifo = [] := by
  apply List.filter_eq_nil_iff.mpr
  intro a ha
  simp only [configureInitUser, List.mem_append] at ha
  rcases ha with (ha | ha) | ha
  · split at ha
    · simp at ha
    · simp only [List.mem_append, List.mem_map] at ha
      rcases ha with ⟨m, _, rfl⟩ | ⟨m, _, rfl⟩ <;> simp [isMkfifo]
  · simp only [List.mem_cons] at ha
    rcases ha with rfl | rfl | h
    · simp [isMkfifo]
    · simp [isMkfifo]
    · simp at h
  · split at ha
    · simp only [List.mem_singleton] at ha
      subst ha
      simp [isMkfifo]
    · simp at ha

/-- Claim C5: `configureInit` creates exactly one sync FIFO, at
`<runtimeDir>/syncfifo`, with mode `0600` when the container process UID
unmapped through the spec's UID mappings equals the runtime UID, and with
mode `0666` otherwise. -/
theorem sync_fifo_mode (runtimeDir libexecInit : String) (usernsConfigured : Bool)
    (uidMappings gidMappings : List IDMapping) (uid gid : Nat)
    (additionalGids : List Nat) (supportsGroups : Bool) (runtimeUID : Nat) :
    (configureInit runtimeDir libexecInit usernsConfigured uidMappings gidMappings uid gid
        additionalGids supportsGroups runtimeUID).filter isMkfifo =
      [CAction.mkfifo (syncFifoPath runtimeDir)
        (if unmapContainerID uid uidMappings = runtimeUID then 0o600 else 0o666)] := by
  have hu := filter_isMkfifo_initUser usernsConfigured uidMappings gidMappings uid gid
    additionalGids supportsGroups
  by_cases he : unmapContainerID uid uidMappings = runtimeUID
  · have hr : runAsRuntimeUser uid uidMappings runtimeUID = true := by
      simp [runAsRuntimeUser, he]
    simp [configureInit, hr, he, hu, createFifo, isMkfifo, List.filter_append]
  · have hr : runAsRuntimeUser uid uidMappings runtimeUID = false := by
      simp [runAsRuntimeUser, he]
    simp [configureInit, hr, he, hu, createFifo, isMkfifo, List.filter_append]

/-! ## Theorems: capabilities, devices, rlimits -/

/-- Claim C8: `configureCapabilities` sets `lxc.cap.keep` to the
space-separated normalized permitted capability names, or to `none` when
capabilities are absent or the permitted set is empty (code value versus the
spec-side description `keepCapsSpecValue`). -/
theorem cap_keep_value (caps : Option (List String)) :
    configureCapabilitiesEntry caps = ("lxc.cap.keep", keepCapsSpecValue caps) := by
  cases caps with
  | none => rfl
  | some l =>
    cases l with
    | nil => rfl
    | cons c cs => simp [configureCapabilitiesEntry, keepCapsValue, keepCapsSpecValue]

theorem bindMountDevicesMounts_eq_bind (ds : List Device) (ms : List Mount) :
    bindMountDevicesMounts ms ds =
      ms.flatMap (fun m =>
        if m.destination = "/dev" then devTmpfs m :: ds.map devBindMount else [m]) := by
  induction ms with
  | nil => rfl
  | cons m rest ih =>
    by_cases hd : m.destination = "/dev" <;>
      simp [bindMountDevicesMounts, hd, ih]

theorem bindMountDevicesMounts_no_dev (ds : List Device) (ms : List Mount)
    (hne : ∀ m ∈ ms, m.destination ≠ "/dev") : bindMountDevicesMounts ms ds = ms := by
  induction ms with
  | nil => rfl
  | cons m rest ih =>
    have hd : m.destination ≠ "/dev" := hne m (by simp)
    simp [bindMountDevicesMounts, hd, ih (fun x hx => hne x (by simp [hx]))]

/-- Claim C10: `bindMountDevices` always clears the devices list, replaces
every mount with destination `/dev` (whatever its type) by a tmpfs mount
followed by one bind mount per device, and leaves the mounts unchanged when
none has destination `/dev` (so the devices are dropped without adding bind
mounts). -/
theorem bindMountDevices_rewrites (ms : List Mount) (ds : List Device) :
    (bindMountDevices ms ds).2 = [] ∧
    (bindMountDevices ms ds).1 =
      ms.flatMap (fun m =>
        if m.destination = "/dev" then devTmpfs m :: ds.map devBindMount else [m]) ∧
    ((∀ m ∈ ms, m.destination ≠ "/dev") → (bindMountDevices ms ds).1 = ms) :=
  ⟨rfl, bindMountDevicesMounts_eq_bind ds ms,
   fun hne => bindMountDevicesMounts_no_dev ds ms hne⟩

/-- Witness for C10: without a `/dev` mount the mounts survive unchanged
while the devices are dropped. -/
theorem bindMountDevices_rewrites_witness :
    (bindMountDevices [mNotDev] [devNull]).1 = [mNotDev] :=
  (bindMountDevices_rewrites [mNotDev] [devNull]).2.2 (by decide)

theorem rlimitEntriesGo_ok (rls : List Rlimit) : ∀ seen : List String,
    (rls.map (fun l => rlimitName l.rtype)).Nodup →
    (∀ n ∈ rls.map (fun l => rlimitName l.rtype), n ∉ seen) →
    rlimitEntriesGo seen rls =
      .ok (rls.map (fun l => ("lxc.prlimit." ++ rlimitName l.rtype,
        Nat.repr l.soft ++ ":" ++ Nat.repr l.hard))) := by
  induction rls with
  | nil => intro seen _ _; rfl
  | cons l rest ih =>
    intro seen hnd hfresh
    have hmem : rlimitName l.rtype ∉ seen := hfresh _ (by simp)
    rw [List.map_cons] at hnd
    have hnd' := List.nodup_cons.mp hnd
    have hfresh' : ∀ n ∈ rest.map (fun l => rlimitName l.rtype),
        n ∉ seen ++ [rlimitName l.rtype] := by
      intro n hn
      simp only [List.mem_append, List.mem_singleton]
      rintro (h | h)
      · exact hfresh n (by simp [hn]) h
      · exact hnd'.1 (h ▸ hn)
    simp only [rlimitEntriesGo]
    rw [if_neg (by simp [hmem]), ih (seen ++ [rlimitName l.rtype]) hnd'.2 hfresh']
    simp

theorem rlimitEntriesGo_dup (rls : List Rlimit) : ∀ seen : List String,
    (¬ (rls.map (fun l => rlimitName l.rtype)).Nodup ∨
      ∃ n ∈ rls.map (fun l => rlimitName l.rtype), n ∈ seen) →
    ∃ e, rlimitEntriesGo seen rls = .error e := by
  induction rls with
  | nil =>
    intro seen h
    rcases h with h | ⟨n, hn, _⟩
    · simp at h
    · simp at hn
  | cons l rest ih =>
    intro seen h
    by_cases hc : rlimitName l.rtype ∈ seen
    · exact ⟨_, by simp only [rlimitEntriesGo]; rw [if_pos (by simp [hc])]⟩
    · have h' : ¬ (rest.map (fun l => rlimitName l.rtype)).Nodup ∨
          ∃ n ∈ rest.map (fun l => rlimitName l.rtype), n ∈ seen ++ [rlimitName l.rtype] := by
        rcases h with h | ⟨n, hn, hns⟩
        · rw [List.map_cons, List.nodup_cons] at h
          by_cases hin : rlimitName l.rtype ∈ rest.map (fun l => rlimitName l.rtype)
          · exact Or.inr ⟨_, hin, by simp⟩
          · exact Or.inl (fun hndrest => h ⟨hin, hndrest⟩)
        · rw [List.map_cons] at hn
          rcases List.mem_cons.mp hn with he | hn'
          · exact absurd (he ▸ hns) hc
          · exact Or.inr ⟨n, hn', by simp [hns]⟩
      obtain ⟨e, he⟩ := ih (seen ++ [rlimitName l.rtype]) h'
      exact ⟨e, by simp only [rlimitEntriesGo]; rw [if_neg (by simp [hc]), he]⟩

/-- Claim C6: `configureContainer` emits exactly one `lxc.prlimit.<name>`
entry per rlimit, with value `<soft>:<hard>` where `<name>` is the type
lower-cased with a leading `rlimit_` stripped, and fails with a
duplicate-resource-limit error when two rlimits normalize to the same
name. -/
theorem rlimit_entries_unique (rls : List Rlimit) :
    ((rls.map (fun l => rlimitName l.rtype)).Nodup →
      configureRlimits rls = .ok (rls.map (fun l => ("lxc.prlimit." ++ rlimitName l.rtype,
        Nat.repr l.soft ++ ":" ++ Nat.repr l.hard)))) ∧
    (¬ (rls.map (fun l => rlimitName l.rtype)).Nodup →
      ∃ e, configureRlimits rls = .error e) :=
  ⟨fun hnd => rlimitEntriesGo_ok rls [] hnd (by simp),
   fun hnd => rlimitEntriesGo_dup rls [] (Or.inl hnd)⟩

/-- Witness for C6: a single `RLIMIT_NOFILE` limit yields the entry
`lxc.prlimit.nofile = 1024:4096`. -/
theorem rlimit_entries_unique_witness :
    configureRlimits [rlimNofile] = .ok ([rlimNofile].map (fun l =>
      ("lxc.prlimit." ++ rlimitName l.rtype, Nat.repr l.soft ++ ":" ++ Nat.repr l.hard))) :=
  (rlimit_entries_unique [rlimNofile]).1 (by decide)

/-! ## Theorems: environment cleanup -/

theorem keyChars_ne (kv : String) : ∀ c ∈ keyChars kv, c ≠ '=' := by
  intro c hc
  rw [keyChars] at hc
  simpa using List.mem_takeWhile_imp hc

theorem listPre_key_iff (k : List Char) : ∀ t r : List Char,
    (∀ c ∈ k, c ≠ '=') → (∀ c ∈ t, c ≠ '=') →
    (listPre (k ++ ['=']) (t ++ '=' :: r) = true ↔ k = t) := by
  induction k with
  | nil =>
    intro t r _ ht
    cases t with
    | nil => simp [listPre]
    | cons c t' =>
      have hc : ('=' : Char) ≠ c := fun h => ht c (by simp) h.symm
      simp [listPre, hc]
  | cons a k' ih =>
    intro t r hk ht
    have ha : a ≠ '=' := hk a (by simp)
    cases t with
    | nil => simp [listPre, ha]
    | cons c t' =>
      by_cases hac : a = c
      · subst hac
        have := ih t' r (fun x hx => hk x (by simp [hx])) (fun x hx => ht x (by simp [hx]))
        simp [listPre, this]
      · simp [listPre, hac]

theorem dropWhile_contains_eq (l : List Char) (h : l.contains '=' = true) :
    ∃ r, l.dropWhile (fun c => c ≠ '=') = '=' :: r := by
  induction l with
  | nil => simp at h
  | cons c l' ih =>
    by_cases hc : c = '='
    · subst hc
      exact ⟨l', by simp [List.dropWhile_cons]⟩
    · have h' : l'.contains '=' = true := by
        rcases (by simpa using h : ('=' : Char) = c ∨ ('=' : Char) ∈ l') with he | hm
        · exact absurd he.symm hc
        · simp [hm]
      obtain ⟨r, hr⟩ := ih h'
      refine ⟨r, ?_⟩
      rw [List.dropWhile_cons, if_pos (by simp [hc])]
      exact hr

theorem exists_key_split (kv : String) (h : kv.data.contains '=' = true) :
    ∃ r, kv.data = keyChars kv ++ '=' :: r := by
  obtain ⟨r, hr⟩ := dropWhile_contains_eq kv.data h
  exact ⟨r, by rw [keyChars, ← hr, List.takeWhile_append_dropWhile]⟩

theorem setenv_match_iff (v kv : String) (hkv : kv.data.contains '=' = true) :
    (listPre (keyChars v ++ ['=']) kv.data = true ↔ keyChars v = keyChars kv) := by
  obtain ⟨r, hr⟩ := exists_key_split kv hkv
  rw [hr]
  exact listPre_key_iff (keyChars v) (keyChars kv) r (keyChars_ne v) (keyChars_ne kv)

theorem setenv_mem (v : String) (ow : Bool) : ∀ acc : List String,
    ∀ e ∈ (setenvGo acc v ow).1, e ∈ acc ∨ e = v := by
  intro acc
  induction acc with
  | nil =>
    intro e he
    simp only [setenvGo, List.mem_singleton] at he
    exact Or.inr he
  | cons kv rest ih =>
    intro e he
    simp only [setenvGo] at he
    split at he
    · rcases List.mem_cons.mp he with he1 | he2
      · cases ow with
        | true => exact Or.inr he1
        | false => exact Or.inl (he1 ▸ List.mem_cons_self kv rest)
      · exact Or.inl (List.mem_cons_of_mem kv he2)
    · rcases List.mem_cons.mp he with he1 | he2
      · exact Or.inl (he1 ▸ List.mem_cons_self kv rest)
      · rcases ih e he2 with h | h
        · exact Or.inl (List.mem_cons_of_mem kv h)
        · exact Or.inr h

theorem setenv_wf (v : String) (ow : Bool) (acc : List String)
    (hacc : ∀ e ∈ acc, e.data.contains '=' = true) (hv : v.data.contains '=' = true) :
    ∀ e ∈ (setenvGo acc v ow).1, e.data.contains '=' = true := by
  intro e he
  rcases setenv_mem v ow acc e he with h | rfl
  · exact hacc e h
  · exact hv

theorem setenv_filter (v : String) (k : List Char) :
    ∀ acc : List String,
    (∀ e ∈ acc, e.data.contains '=' = true) →
    List.Pairwise (fun a b => keyChars a ≠ keyChars b) acc →
    (setenvGo acc v true).1.filter (fun kv => keyChars kv == k) =
      if keyChars v = k then [v] else acc.filter (fun kv => keyChars kv == k) := by
  intro acc
  induction acc with
  | nil =>
    intro _ _
    simp only [setenvGo]
    by_cases hk : keyChars v = k <;> simp [List.filter_cons, beq_iff_eq, hk]
  | cons kv rest ih =>
    intro hwf hnd
    have hkv : kv.data.contains '=' = true := hwf kv (by simp)
    have hwfr : ∀ e ∈ rest, e.data.contains '=' = true := fun e he => hwf e (by simp [he])
    obtain ⟨hhead, htail⟩ := List.pairwise_cons.mp hnd
    simp only [setenvGo]
    by_cases hm : listPre (keyChars v ++ ['=']) kv.data = true
    · rw [if_pos hm]
      have hkey : keyChars v = keyChars kv := (setenv_match_iff v kv hkv).mp hm
      by_cases hk : keyChars v = k
      · rw [if_pos hk]
        have hrest : rest.filter (fun kv => keyChars kv == k) = [] := by
          apply List.filter_eq_nil_iff.mpr
          intro a ha
          have hne : keyChars kv ≠ keyChars a := hhead a ha
          simp only [beq_iff_eq]
          rw [← hk, hkey]
          exact fun hc => hne hc.symm
        simp [List.filter_cons, beq_iff_eq, hk, hrest]
      · rw [if_neg hk]
        have h2 : ¬ (keyChars kv = k) := fun hc => hk (hkey.trans hc)
        simp [List.filter_cons, beq_iff_eq, hk, h2]
    · rw [if_neg hm]
      have hkey : keyChars v ≠ keyChars kv := fun he => hm ((setenv_match_iff v kv hkv).mpr he)
      have ihr := ih hwfr htail
      by_cases hvk : keyChars v = k
      · rw [if_pos hvk]
        have hkvk : ¬ (keyChars kv = k) := fun hc => hkey (hvk.trans hc.symm)
        simp [List.filter_cons, beq_iff_eq, hkvk, ihr, hvk]
      · rw [if_neg hvk]
        by_cases hkvk : keyChars kv = k <;>
          simp [List.filter_cons, beq_iff_eq, hkvk, ihr, hvk]

theorem setenv_pairwise (v : String) (hv : v.data.contains '=' = true) :
    ∀ acc : List String,
    (∀ e ∈ acc, e.data.contains '=' = true) →
    List.Pairwise (fun a b => keyChars a ≠ keyChars b) acc →
    List.Pairwise (fun a b => keyChars a ≠ keyChars b) (setenvGo acc v true).1 := by
  intro acc
  induction acc with
  | nil => intro _ _; simp [setenvGo]
  | cons kv rest ih =>
    intro hacc hnd
    have hkv : kv.data.contains '=' = true := hacc kv (by simp)
    obtain ⟨hhead, htail⟩ := List.pairwise_cons.mp hnd
    simp only [setenvGo]
    by_cases hm : listPre (keyChars v ++ ['=']) kv.data = true
    · rw [if_pos hm]
      have hkey : keyChars v = keyChars kv := (setenv_match_iff v kv hkv).mp hm
      refine List.pairwise_cons.mpr ⟨fun b hb => ?_, htail⟩
      show keyChars v ≠ keyChars b
      rw [hkey]
      exact hhead b hb
    · rw [if_neg hm]
      have hkey : keyChars v ≠ keyChars kv := fun he => hm ((setenv_match_iff v kv hkv).mpr he)
      refine List.pairwise_cons.mpr
        ⟨?_, ih (fun e he => hacc e (by simp [he])) htail⟩
      intro b hb
      rcases setenv_mem v true rest b hb with h | rfl
      · exact hhead b h
      · exact fun hc => hkey hc.symm

theorem cleanenv_fold (env : List String) : ∀ acc : List String,
    (∀ e ∈ acc, e.data.contains '=' = true) →
    (∀ e ∈ env, e.data.contains '=' = true) →
    List.Pairwise (fun a b => keyChars a ≠ keyChars b) acc →
    List.Pairwise (fun a b => keyChars a ≠ keyChars b)
      (env.foldl (fun acc kv => (setenvGo acc kv true).1) acc) ∧
    ∀ k : List Char,
      (env.foldl (fun acc kv => (setenvGo acc kv true).1) acc).filter
          (fun kv => keyChars kv == k) =
        match (env.filter (fun kv => keyChars kv == k)).getLast? with
        | some w => [w]
        | none => acc.filter (fun kv => keyChars kv == k) := by
  induction env with
  | nil =>
    intro acc _ _ hnd
    exact ⟨hnd, fun k => by simp⟩
  | cons v env' ih =>
    intro acc hacc henv hnd
    have hv : v.data.contains '=' = true := henv v (by simp)
    have henv' : ∀ e ∈ env', e.data.contains '=' = true := fun e he => henv e (by simp [he])
    have hacc' := setenv_wf v true acc hacc hv
    have hnd' := setenv_pairwise v hv acc hacc hnd
    obtain ⟨ihp, ihf⟩ := ih (setenvGo acc v true).1 hacc' henv' hnd'
    refine ⟨by rw [List.foldl_cons]; exact ihp, fun k => ?_⟩
    rw [List.foldl_cons, ihf k]
    have hs := setenv_filter v k acc hacc hnd
    by_cases hvk : keyChars v = k
    · have hcons : (v :: env').filter (fun kv => keyChars kv == k) =
          v :: env'.filter (fun kv => keyChars kv == k) := by
        simp [List.filter_cons, beq_iff_eq, hvk]
      rw [hcons]
      cases hlast : env'.filter (fun kv => keyChars kv == k) with
      | nil =>
        simp only [List.getLast?_nil, List.getLast?_singleton]
        rw [hs, if_pos hvk]
      | cons w ws =>
        rw [List.getLast?_cons_cons]
        cases hg : (w :: ws).getLast? with
        | none => exact absurd hg (by simp)
        | some x => rfl
    · have hcons : (v :: env').filter (fun kv => keyChars kv == k) =
          env'.filter (fun kv => keyChars kv == k) := by
        simp [List.filter_cons, beq_iff_eq, hvk]
      rw [hcons, hs, if_neg hvk]

/-- Counterexample for C2: `Create` calls `cleanenv` with `overwrite = true`,
so for the duplicated name `A` the value kept is the one from the **last**
definition (`A=2`), not the first (`A=1`) as the claim states. -/
theorem cleanenv_create_counterexample :
    cleanenvGo ["A=1", "A=2"] true = ["A=2"] ∧ cleanenvGo ["A=1", "A=2"] true ≠ ["A=1"] := by
  decide

/-- Claim C2 (amended): after `Create`'s environment cleanup
(`cleanenv` with `overwrite = true`), each variable name occurs at most
once, and for every name that appeared more than once in the input the value
kept is the one from the **last** definition (stated for well-formed entries
containing `=`: for every key, the filtered survivor is exactly the last
input entry with that key). -/
theorem cleanenv_overwrite_unique_last (env : List String)
    (hwf : ∀ kv ∈ env, kv.data.contains '=' = true) :
    List.Pairwise (fun a b => keyChars a ≠ keyChars b) (cleanenvGo env true) ∧
    ∀ k : List Char,
      (cleanenvGo env true).filter (fun kv => keyChars kv == k) =
        ((env.filter (fun kv => keyChars kv == k)).getLast?).toList := by
  unfold cleanenvGo
  split
  case isTrue hlen =>
    cases env with
    | nil => exact ⟨List.Pairwise.nil, fun k => by simp⟩
    | cons v tl =>
      cases tl with
      | nil =>
        refine ⟨by simp, fun k => ?_⟩
        by_cases hvk : keyChars v == k <;> simp [List.filter_cons, hvk]
      | cons w tl' =>
        simp [List.length_cons] at hlen
        omega
  case isFalse =>
    obtain ⟨hp, hf⟩ := cleanenv_fold env [] (by simp) hwf List.Pairwise.nil
    refine ⟨hp, fun k => ?_⟩
    rw [hf k]
    cases hg : (env.filter (fun kv => keyChars kv == k)).getLast? with
    | none => simp
    | some w => simp

/-- Witness for C2 (amended): with the duplicated name `A`, the survivor for
key `A` is the last definition and the keys are pairwise distinct. -/
theorem cleanenv_overwrite_unique_last_witness :
    List.Pairwise (fun a b => keyChars a ≠ keyChars b) (cleanenvGo ["A=1", "A=2"] true) ∧
      (cleanenvGo ["A=1", "A=2"] true).filter (fun kv => keyChars kv == ['A']) =
        (((["A=1", "A=2"] : List String).filter
          (fun kv => keyChars kv == ['A'])).getLast?).toList := by
  obtain ⟨hp, hf⟩ := cleanenv_overwrite_unique_last ["A=1", "A=2"] (by decide)
  exact ⟨hp, hf ['A']⟩

end Lxcri
